import Mathlib

/-!
Verification of the result-caching, history-trend and file-ranking core of
the Vibe-Code Auditor repository.  The Python sources
`src/utils/cache_manager.py`, `src/utils/history_tracker.py` and
`src/analyzers/ai_analyzer.py` are shallowly embedded below: dictionaries
become association lists, `datetime` values become integers (any fixed time
unit), Python `float` scores become exact integers (every contribution in
the source is integral), and the SHA-256 digest is a parameter `H` of the
model.  File contents are strings; `st_mtime` and `st_size` are modelled as
naturals rendered in decimal, matching the f-string rendering in the source.
-/

/-- Decimal rendering of a natural number, as Python's str() renders it. -/
def renderNat (n : Nat) : String :=
  if n = 0 then "0" else ⟨(Nat.digits 10 n).reverse.map Nat.digitChar⟩

/-- Whitespace test matching Python's str.strip and regex \s class. -/
def isSpaceChar (c : Char) : Bool :=
  c = ' ' || c = '\t' || c = '\n' || c = '\r' || c = '\x0b' || c = '\x0c'

/-- Word-character test matching the regex \w class (ASCII approximation). -/
def isWordChar (c : Char) : Bool :=
  c.isAlphanum || c = '_'

/-- Boolean test that the first list is an initial segment of the second. -/
def startsWithList : List Char → List Char → Bool
  | [], _ => true
  | _ :: _, [] => false
  | p :: ps, c :: cs => p == c && startsWithList ps cs

/-- Boolean substring test, modelling the Python operator `in` on strings. -/
def subOf (p : List Char) : List Char → Bool
  | [] => p.isEmpty
  | c :: cs => startsWithList p (c :: cs) || subOf p cs

/-- Substring containment between strings (pattern first). -/
def strIn (p s : String) : Bool := subOf p.data s.data

/-- Lowercasing of a string, character by character. -/
def strLower (s : String) : String := ⟨s.data.map Char.toLower⟩

/-- Helper splitting a character list at newline characters, dropping the
separators, as Python str.split with a newline separator does. -/
def pySplitNlAux : List Char → List Char → List (List Char)
  | [], acc => [acc.reverse]
  | c :: rest, acc =>
      if c = '\n' then acc.reverse :: pySplitNlAux rest []
      else pySplitNlAux rest (c :: acc)

/-- Python content.split with a newline separator. -/
def pySplitNl (s : String) : List String :=
  (pySplitNlAux s.data []).map String.mk

/-- Helper splitting a character list into newline-terminated lines, keeping
the terminators, as Python readlines does. -/
def pyReadLinesAux : List Char → List Char → List (List Char)
  | [], acc => if acc.isEmpty then [] else [acc.reverse]
  | c :: rest, acc =>
      if c = '\n' then (acc.reverse ++ ['\n']) :: pyReadLinesAux rest []
      else pyReadLinesAux rest (c :: acc)

/-- Python file.readlines on the full text of a file. -/
def pyReadLines (s : String) : List String :=
  (pyReadLinesAux s.data []).map String.mk

/-- Tokens of the fixed regular expressions used by the analyzer: a literal
string, one-or-more whitespace, one-or-more word characters, or
zero-or-more whitespace. -/
inductive PatTok where
  | lit (cs : List Char)
  | spaces1
  | word1
  | spaces0
deriving DecidableEq

/-- Greedy matcher for a token sequence at the start of the input; returns
the rest of the input after the match.  For the patterns below the greedy
strategy is exact, because each quantified class is disjoint from the token
that follows it. -/
def matchToks : List PatTok → List Char → Option (List Char)
  | [], s => some s
  | PatTok.lit cs :: ts, s =>
      if startsWithList cs s then matchToks ts (s.drop cs.length) else none
  | PatTok.spaces1 :: ts, s =>
      if (s.takeWhile isSpaceChar).isEmpty then none
      else matchToks ts (s.dropWhile isSpaceChar)
  | PatTok.word1 :: ts, s =>
      if (s.takeWhile isWordChar).isEmpty then none
      else matchToks ts (s.dropWhile isWordChar)
  | PatTok.spaces0 :: ts, s => matchToks ts (s.dropWhile isSpaceChar)

/-- Fuelled scan counting non-overlapping matches, as re.findall does: on a
match the scan continues after the matched text, otherwise it advances by
one character. -/
def countMatchesAux (p : List PatTok) : Nat → List Char → Nat
  | 0, _ => 0
  | fuel + 1, s =>
      match matchToks p s with
      | some rest => 1 + countMatchesAux p fuel rest
      | none =>
          match s with
          | [] => 0
          | _ :: t => countMatchesAux p fuel t

/-- Number of non-overlapping matches of one pattern in the content. -/
def countMatches (p : List PatTok) (content : String) : Nat :=
  countMatchesAux p (content.data.length + 1) content.data

namespace CacheManager

/-- Metadata of one project file as seen through os.stat in the source. -/
structure FileMeta where
  path : String
  mtime : Nat
  size : Nat
deriving DecidableEq

/-- Files sorted by path, modelling sorted(files) over pathlib paths. -/
def sortFiles (files : List FileMeta) : List FileMeta :=
  List.insertionSort (fun f g : FileMeta => f.path ≤ g.path) files

/-- Triple string path:mtime:size emitted per file in _compute_project_hash. -/
def tripleStr (f : FileMeta) : String :=
  f.path ++ ":" ++ renderNat f.mtime ++ ":" ++ renderNat f.size

/-- Joined metadata string of _compute_project_hash before hashing. -/
def combinedString (files : List FileMeta) : String :=
  String.intercalate "|" ((sortFiles files).map tripleStr)

/-- Project hash: the digest H applied to the joined metadata string.
The source uses hashlib.sha256; the digest is a parameter of the model. -/
def projectHash (H : String → String) (files : List FileMeta) : String :=
  H (combinedString files)

/-- One cache entry: timestamp, optional project hash, and the result blob.
The project_hash key is present only when a file list was supplied to save. -/
structure CacheEntry (α : Type) where
  timestamp : Int
  projectHash : Option String
  result : α
deriving DecidableEq

/-- The persisted cache map, with string keys in insertion order. -/
def CacheStore (α : Type) : Type := List (String × CacheEntry α)

/-- Lookup of a key in the store. -/
def storeFind {α : Type} : CacheStore α → String → Option (CacheEntry α)
  | [], _ => none
  | (k', e) :: rest, k => if k' = k then some e else storeFind rest k

/-- Insertion or overwrite of a key, keeping dict insertion-order semantics. -/
def storeSet {α : Type} : CacheStore α → String → CacheEntry α → CacheStore α
  | [], k, e => [(k, e)]
  | (k', e') :: rest, k, e =>
      if k' = k then (k, e) :: rest else (k', e') :: storeSet rest k e

/-- Deletion of a key from the store. -/
def storeErase {α : Type} : CacheStore α → String → CacheStore α
  | [], _ => []
  | (k', e) :: rest, k =>
      if k' = k then storeErase rest k else (k', e) :: storeErase rest k

/-- Truthiness of the optional file-list argument: Python treats both None
and an empty list as false in the `if project_files:` checks. -/
def filesTruthy : Option (List FileMeta) → Bool
  | some (_ :: _) => true
  | _ => false

/-- Model of CacheManager.get_cached_result.  Returns the cached result and
the store after the call; the source never writes in this method, so the
store comes back unchanged.  Misses on an absent key, on expiry
(now - timestamp strictly above the TTL), and on a project-hash mismatch
when a non-empty file list is supplied. -/
def get_cached_result {α : Type} (H : String → String) (ttl now : Int)
    (store : CacheStore α) (key : String) (files : Option (List FileMeta)) :
    Option α × CacheStore α :=
  match storeFind store key with
  | none => (none, store)
  | some e =>
      if now - e.timestamp > ttl then (none, store)
      else if filesTruthy files then
        let current := projectHash H (files.getD [])
        let cached := e.projectHash.getD ""
        if current ≠ cached then (none, store) else (some e.result, store)
      else (some e.result, store)

/-- Model of CacheManager.save_result: overwrites the key with a fresh entry
carrying the current time and, when a non-empty file list is supplied, the
project hash of that list. -/
def save_result {α : Type} (H : String → String) (now : Int)
    (store : CacheStore α) (key : String) (result : α)
    (files : Option (List FileMeta)) : CacheStore α :=
  let e : CacheEntry α :=
    { timestamp := now
      projectHash :=
        if filesTruthy files then some (projectHash H (files.getD [])) else none
      result := result }
  storeSet store key e

/-- Model of CacheManager.invalidate: with a key, deletes that entry when
present (the source only rewrites the file in that case); with none, deletes
the whole backing store. -/
def invalidate {α : Type} (store : CacheStore α) (key : Option String) :
    CacheStore α :=
  match key with
  | none => []
  | some k => if (storeFind store k).isSome then storeErase store k else store

end CacheManager

namespace HistoryTracker

/-- Severity counts, the values read from a by_severity mapping with
defaults of zero for missing keys. -/
structure Severity where
  critical : Int
  warning : Int
  info : Int
deriving DecidableEq

/-- The fields of one analysis result summary that HistoryTracker reads:
summary.total_issues and summary.by_severity, defaulting to zero. -/
structure Summary where
  total_issues : Int
  by_severity : Severity
deriving DecidableEq

/-- The aggregated summary stored inside a history entry. -/
structure EntrySummary where
  total_issues : Int
  static_issues : Int
  ai_issues : Int
  by_severity : Severity
deriving DecidableEq

/-- One element of the persisted history array.  ISO-8601 timestamps sort
lexicographically in chronological order, so they are modelled as integers. -/
structure HistoryEntry where
  timestamp : Int
  mode : String
  summary : EntrySummary
deriving DecidableEq

instance : Inhabited HistoryEntry :=
  ⟨{ timestamp := 0, mode := "",
     summary := { total_issues := 0, static_issues := 0, ai_issues := 0,
                  by_severity := { critical := 0, warning := 0, info := 0 } } }⟩

/-- Model of HistoryTracker._aggregate_severity: per-field sum of the static
and (when present) AI severity counts. -/
def aggregate_severity (static_results : Summary) (ai_results : Option Summary) :
    Severity :=
  let s := static_results.by_severity
  let a := match ai_results with
    | some ai => ai.by_severity
    | none => { critical := 0, warning := 0, info := 0 }
  { critical := s.critical + a.critical
    warning := s.warning + a.warning
    info := s.info + a.info }

/-- The entry built by HistoryTracker.save_result before appending. -/
def mkHistoryEntry (now : Int) (mode : String) (static_results : Summary)
    (ai_results : Option Summary) : HistoryEntry :=
  let aiTotal := match ai_results with
    | some ai => ai.total_issues
    | none => 0
  { timestamp := now
    mode := mode
    summary :=
      { total_issues := static_results.total_issues + aiTotal
        static_issues := static_results.total_issues
        ai_issues := aiTotal
        by_severity := aggregate_severity static_results ai_results } }

/-- Model of HistoryTracker.save_result: loads the history, appends the new
entry and saves; prior entries are carried over unchanged. -/
def save_result (now : Int) (mode : String) (static_results : Summary)
    (ai_results : Option Summary) (history : List HistoryEntry) :
    List HistoryEntry :=
  history ++ [mkHistoryEntry now mode static_results ai_results]

/-- Stable chronological sort by timestamp, modelling list.sort with the
timestamp key. -/
def sortByTimestamp (history : List HistoryEntry) : List HistoryEntry :=
  List.insertionSort (fun a b => a.timestamp ≤ b.timestamp) history

/-- One timeline point of the trend payload. -/
structure TimelinePoint where
  timestamp : Int
  total_issues : Int
  critical : Int
  warning : Int
  info : Int
deriving DecidableEq

/-- A JSON-like value appearing in the record returned by get_trend_data. -/
inductive TrendVal where
  | int (n : Int)
  | str (s : String)
  | rat (q : ℚ)
  | timeline (points : List TimelinePoint)

/-- Rounding to the nearest integer with ties to even, as Python round(). -/
def roundHalfEven (x : ℚ) : ℤ :=
  if x - ⌊x⌋ = 1 / 2 then (if Even ⌊x⌋ then ⌊x⌋ else ⌊x⌋ + 1) else round x

/-- Python round(x, 1), on exact rationals. -/
def pyRound1 (x : ℚ) : ℚ := (roundHalfEven (x * 10) : ℚ) / 10

/-- Model of HistoryTracker.get_trend_data.  The returned Python dict is
modelled as an association list in literal key order; note that the
zero-entry branch carries fewer keys than the general branch. -/
def get_trend_data (history : List HistoryEntry) : List (String × TrendVal) :=
  match history with
  | [] =>
      [("total_runs", TrendVal.int 0), ("trend", TrendVal.str "no_data"),
       ("current_issues", TrendVal.int 0), ("previous_issues", TrendVal.int 0),
       ("change", TrendVal.int 0)]
  | _ :: _ =>
      let sorted := sortByTimestamp history
      let current := sorted.getLastD default
      let previous : Option HistoryEntry :=
        if 1 < history.length then some (sorted.getD (sorted.length - 2) default)
        else none
      let current_issues := current.summary.total_issues
      let previous_issues := match previous with
        | some p => p.summary.total_issues
        | none => current_issues
      let change := current_issues - previous_issues
      let trend :=
        if change < 0 then "improving"
        else if change > 0 then "declining"
        else "stable"
      [("total_runs", TrendVal.int history.length),
       ("trend", TrendVal.str trend),
       ("current_issues", TrendVal.int current_issues),
       ("previous_issues", TrendVal.int previous_issues),
       ("change", TrendVal.int change),
       ("change_percent", TrendVal.rat (pyRound1
         (if previous_issues > 0 then (change : ℚ) / (previous_issues : ℚ) * 100
          else 0))),
       ("timeline", TrendVal.timeline (sorted.map fun e =>
         { timestamp := e.timestamp
           total_issues := e.summary.total_issues
           critical := e.summary.by_severity.critical
           warning := e.summary.by_severity.warning
           info := e.summary.by_severity.info }))]

end HistoryTracker

namespace AIAnalyzer

/-- The high-priority filename patterns of the analyzer instance. -/
def high_priority_patterns : List String :=
  ["main", "app", "index", "server", "client", "config", "settings", "router",
   "controller", "service", "manager", "handler", "api"]

/-- The medium-priority filename patterns. -/
def medium_priority_patterns : List String :=
  ["model", "view", "component", "module"]

/-- The low-priority filename patterns. -/
def low_priority_patterns : List String :=
  ["util", "helper", "common", "test", "spec"]

/-- Whether a lowercased filename matches some high-priority pattern. -/
def isHighPriorityName (filenameLower : String) : Bool :=
  high_priority_patterns.any (fun p => strIn p filenameLower)

/-- Contribution of the high-priority tier loop: +100 on the first matching
pattern, then break. -/
def highTierScore (filename : String) : Int :=
  if isHighPriorityName filename then 100 else 0

/-- Contribution of the medium-priority tier loop: +50 on the first matching
pattern, then break. -/
def medTierScore (filename : String) : Int :=
  if medium_priority_patterns.any (fun p => strIn p filename) then 50 else 0

/-- Contribution of the low-priority tier loop: the loop has no break, so
every matching pattern subtracts 30. -/
def lowTierScore (filename : String) : Int :=
  -30 * ((low_priority_patterns.filter (fun p => strIn p filename)).length : Int)

/-- Path-depth contribution: closer to the root scores higher. -/
def depthScore (depth : Nat) : Int :=
  max 0 (50 - 10 * (depth : Int))

/-- The four function-declaration regex patterns. -/
def funcPatterns : List (List PatTok) :=
  [[PatTok.lit "def".data, PatTok.spaces1, PatTok.word1],
   [PatTok.lit "function".data, PatTok.spaces1, PatTok.word1],
   [PatTok.lit "func".data, PatTok.spaces1, PatTok.word1],
   [PatTok.lit "public".data, PatTok.spaces1, PatTok.word1, PatTok.spaces1,
    PatTok.word1, PatTok.spaces0, PatTok.lit "(".data]]

/-- The three type-declaration regex patterns. -/
def classPatterns : List (List PatTok) :=
  [[PatTok.lit "class".data, PatTok.spaces1, PatTok.word1],
   [PatTok.lit "struct".data, PatTok.spaces1, PatTok.word1],
   [PatTok.lit "interface".data, PatTok.spaces1, PatTok.word1]]

/-- The four import-statement regex patterns. -/
def importPatterns : List (List PatTok) :=
  [[PatTok.lit "import".data, PatTok.spaces1],
   [PatTok.lit "from".data, PatTok.spaces1, PatTok.word1, PatTok.spaces1,
    PatTok.lit "import".data],
   [PatTok.lit "require(".data],
   [PatTok.lit "use".data, PatTok.spaces1]]

/-- Code-density contribution: 5 per function match, 10 per type match and
3 per import match, summed over the fixed pattern lists. -/
def complexityScore (content : String) : Int :=
  let funcCount := (funcPatterns.map (fun p => countMatches p content)).sum
  let classCount := (classPatterns.map (fun p => countMatches p content)).sum
  let importCount := (importPatterns.map (fun p => countMatches p content)).sum
  (funcCount : Int) * 5 + (classCount : Int) * 10 + (importCount : Int) * 3

/-- Size contribution, with the sweet-spot band widened for filenames that
match a high-priority pattern. -/
def sizeScore (filenameLower : String) (content : String) : Int :=
  let lineCount := (pySplitNl content).length
  if isHighPriorityName filenameLower then
    if 50 ≤ lineCount ∧ lineCount ≤ 1000 then 20
    else if 1000 < lineCount then 10 else 0
  else
    if 50 ≤ lineCount ∧ lineCount ≤ 500 then 20
    else if 500 < lineCount then 10 else 0

/-- Contributions of AIAnalyzer._calculate_file_score other than the three
filename tiers: path depth, code density and size appropriateness. -/
def restScore (name : String) (depth : Nat) (content : String) : Int :=
  depthScore depth + complexityScore content + sizeScore (strLower name) content

/-- Model of AIAnalyzer._calculate_file_score on a file with the given final
path component, relative-path depth and (truncated) content. -/
def calculate_file_score (name : String) (depth : Nat) (content : String) : Int :=
  let filename := strLower name
  highTierScore filename + medTierScore filename + lowTierScore filename +
    restScore name depth content

/-- One filesystem object yielded by the directory traversal, described by
its path components relative to the project root, whether it is a regular
file, whether reading it succeeds, and its full text. -/
structure RawFile where
  parts : List String
  isFile : Bool
  readOk : Bool
  content : String
deriving DecidableEq

/-- Directory names excluded from the traversal. -/
def exclude_dirs : List String :=
  ["node_modules", "venv", ".venv", ".git", "__pycache__", "build", "dist",
   "target", "vendor"]

/-- The extension allow-list for eligible source files. -/
def file_extensions : List String :=
  [".py", ".js", ".jsx", ".ts", ".tsx", ".go", ".rs", ".java", ".kt", ".kts",
   ".php", ".cs", ".rb", ".swift"]

/-- Final path component of a traversal entry. -/
def fileName (f : RawFile) : String := f.parts.getLastD ""

/-- Relative path string of a traversal entry. -/
def relPath (f : RawFile) : String := String.intercalate "/" f.parts

/-- Extension of a filename, as pathlib computes it: from the last dot on,
empty when there is no dot, when the dot is first or when it is last. -/
def pathSuffix (name : String) : String :=
  let rev := name.data.reverse
  let t := rev.takeWhile (fun c => !(c == '.'))
  if t.length = name.data.length then ""
  else if t.length = 0 then ""
  else if name.data.length = t.length + 1 then ""
  else String.mk ('.' :: t.reverse)

/-- Read limit: 1000 lines for high-priority filenames, 500 otherwise. -/
def maxLinesFor (name : String) : Nat :=
  if isHighPriorityName (strLower name) then 1000 else 500

/-- The line-truncated content actually read for a file. -/
def truncContent (f : RawFile) : String :=
  String.join ((pyReadLines f.content).take (maxLinesFor (fileName f)))

/-- Truthiness of content.strip: some character is not whitespace. -/
def hasVisibleChar (s : String) : Bool :=
  s.data.any (fun c => !(isSpaceChar c))

/-- The eligibility checks of _collect_code_samples that do not involve the
analyzed-file set: no excluded directory component, a regular file with an
allowed extension, readable, and non-blank truncated content. -/
def eligibleNoSkip (f : RawFile) : Bool :=
  !(exclude_dirs.any (fun d => f.parts.contains d)) &&
  (f.isFile && file_extensions.contains (pathSuffix (fileName f))) &&
  f.readOk &&
  hasVisibleChar (truncContent f)

/-- The files of the traversal that survive all skip checks, in traversal
order; when skipAnalyzed is set, files whose relative path was already
analyzed are dropped. -/
def candidates (fs : List RawFile) (skipAnalyzed : Bool)
    (analyzed : List String) : List RawFile :=
  fs.filter (fun f =>
    eligibleNoSkip f && !(skipAnalyzed && analyzed.contains (relPath f)))

/-- The scored record built for each candidate file. -/
structure FileScoreRec where
  path : String
  content : String
  extension : String
  score : Int
deriving DecidableEq

/-- Scoring of one candidate file. -/
def scoreOf (f : RawFile) : FileScoreRec :=
  { path := relPath f
    content := truncContent f
    extension := pathSuffix (fileName f)
    score := calculate_file_score (fileName f) f.parts.length (truncContent f) }

/-- The descending-score order used by the selection sort. -/
def scoreGE (a b : FileScoreRec) : Prop := b.score ≤ a.score

instance : DecidableRel scoreGE :=
  fun a b => inferInstanceAs (Decidable (b.score ≤ a.score))

instance : IsTotal FileScoreRec scoreGE :=
  ⟨fun a b => le_total b.score a.score⟩

instance : IsTrans FileScoreRec scoreGE :=
  ⟨fun _ _ _ h₁ h₂ => le_trans h₂ h₁⟩

/-- Stable descending sort by score, modelling list.sort with reverse order:
a stable sort keeps equal-score records in traversal order. -/
def sortByScore (l : List FileScoreRec) : List FileScoreRec :=
  List.insertionSort scoreGE l

/-- One returned code sample (the score is stripped before returning). -/
structure Sample where
  path : String
  content : String
  extension : String
deriving DecidableEq

/-- Set-insertion of a path into the analyzed set. -/
def addAnalyzed (analyzed : List String) (p : String) : List String :=
  if analyzed.contains p then analyzed else analyzed ++ [p]

/-- Model of AIAnalyzer._collect_code_samples: filter the traversal, score,
sort descending by score, take the first maxFiles, record the selected
paths into the analyzed set, and return the samples without scores together
with the new analyzed set. -/
def collect_code_samples (fs : List RawFile) (maxFiles : Nat)
    (skipAnalyzed : Bool) (analyzed : List String) :
    List Sample × List String :=
  let selected :=
    (sortByScore ((candidates fs skipAnalyzed analyzed).map scoreOf)).take maxFiles
  let analyzed2 := selected.foldl (fun a s => addAnalyzed a s.path) analyzed
  (selected.map (fun s =>
    { path := s.path, content := s.content, extension := s.extension }),
   analyzed2)

/-- The analyzed set of one fixed analyzer instance after k incremental
calls with skipAnalyzed set; a fresh instance starts with an empty set. -/
def iterAnalyzed (fs : List RawFile) (maxFiles : Nat) : Nat → List String
  | 0 => []
  | k + 1 => (collect_code_samples fs maxFiles true (iterAnalyzed fs maxFiles k)).2

/-- The sample list returned by the k-th incremental call (zero-based). -/
def iterOut (fs : List RawFile) (maxFiles : Nat) (k : Nat) : List Sample :=
  (collect_code_samples fs maxFiles true (iterAnalyzed fs maxFiles k)).1

end AIAnalyzer

theorem strData_append (a b : String) : (a ++ b).data = a.data ++ b.data := rfl

theorem strData_inj {a b : String} (h : a.data = b.data) : a = b :=
  congrArg String.mk h

theorem digitChar_lt_inj :
    ∀ x, x < 10 → ∀ y, y < 10 → Nat.digitChar x = Nat.digitChar y → x = y := by
  decide

theorem digitChar_lt_isDigit : ∀ d, d < 10 → (Nat.digitChar d).isDigit = true := by
  decide

theorem map_digitChar_inj :
    ∀ l₁ l₂ : List Nat, (∀ d ∈ l₁, d < 10) → (∀ d ∈ l₂, d < 10) →
      l₁.map Nat.digitChar = l₂.map Nat.digitChar → l₁ = l₂ := by
  intro l₁
  induction l₁ with
  | nil => intro l₂ _ _ h; cases l₂ <;> simp_all
  | cons d₁ t₁ ih =>
      intro l₂ h₁ h₂ h
      cases l₂ with
      | nil => simp at h
      | cons d₂ t₂ =>
          simp only [List.map_cons, List.cons.injEq] at h
          have hd : d₁ = d₂ :=
            digitChar_lt_inj d₁ (h₁ d₁ (by simp)) d₂ (h₂ d₂ (by simp)) h.1
          have ht : t₁ = t₂ :=
            ih t₂ (fun d hd => h₁ d (by simp [hd])) (fun d hd => h₂ d (by simp [hd])) h.2
          simp [hd, ht]

theorem renderNat_data_isDigit {n : Nat} :
    ∀ c ∈ (renderNat n).data, c.isDigit = true := by
  intro c hc
  unfold renderNat at hc
  by_cases hn : n = 0
  · simp [hn] at hc
    simp [hc]
  · simp only [hn, if_false] at hc
    simp only [List.mem_map, List.mem_reverse] at hc
    obtain ⟨d, hd, rfl⟩ := hc
    exact digitChar_lt_isDigit d (Nat.digits_lt_base (by norm_num) hd)

theorem renderNat_injective : Function.Injective renderNat := by
  intro a b h
  unfold renderNat at h
  by_cases ha : a = 0 <;> by_cases hb : b = 0
  · simp [ha, hb]
  · exfalso
    simp only [ha, if_true, hb, if_false] at h
    have hd : ['0'] = (Nat.digits 10 b).reverse.map Nat.digitChar :=
      congrArg String.data h
    have hlen : (Nat.digits 10 b).length = 1 := by
      have := congrArg List.length hd
      simpa using this.symm
    obtain ⟨d, hdig⟩ := List.length_eq_one.mp hlen
    rw [hdig] at hd
    simp only [List.reverse_cons, List.reverse_nil, List.nil_append,
      List.map_cons, List.map_nil, List.cons.injEq] at hd
    have hd10 : d < 10 :=
      Nat.digits_lt_base (by norm_num) (by rw [hdig]; simp)
    have hd0 : d = 0 := digitChar_lt_inj d hd10 0 (by norm_num) hd.1.symm
    have hb0 : b = 0 := by
      have := Nat.ofDigits_digits 10 b
      rw [hdig, hd0] at this
      simpa [Nat.ofDigits] using this.symm
    exact hb hb0
  · exfalso
    simp only [ha, if_false, hb, if_true] at h
    have hd : (Nat.digits 10 a).reverse.map Nat.digitChar = ['0'] :=
      congrArg String.data h
    have hlen : (Nat.digits 10 a).length = 1 := by
      have := congrArg List.length hd
      simpa using this
    obtain ⟨d, hdig⟩ := List.length_eq_one.mp hlen
    rw [hdig] at hd
    simp only [List.reverse_cons, List.reverse_nil, List.nil_append,
      List.map_cons, List.map_nil, List.cons.injEq] at hd
    have hd10 : d < 10 :=
      Nat.digits_lt_base (by norm_num) (by rw [hdig]; simp)
    have hd0 : d = 0 := digitChar_lt_inj d hd10 0 (by norm_num) hd.1
    have ha0 : a = 0 := by
      have := Nat.ofDigits_digits 10 a
      rw [hdig, hd0] at this
      simpa [Nat.ofDigits] using this.symm
    exact ha ha0
  · simp only [ha, hb, if_false] at h
    have hd : (Nat.digits 10 a).reverse.map Nat.digitChar =
        (Nat.digits 10 b).reverse.map Nat.digitChar := congrArg String.data h
    have hrev : (Nat.digits 10 a).reverse = (Nat.digits 10 b).reverse :=
      map_digitChar_inj _ _
        (fun d hdm => Nat.digits_lt_base (by norm_num) (List.mem_reverse.mp hdm))
        (fun d hdm => Nat.digits_lt_base (by norm_num) (List.mem_reverse.mp hdm)) hd
    have hdig : Nat.digits 10 a = Nat.digits 10 b :=
      List.reverse_injective hrev
    calc a = Nat.ofDigits 10 (Nat.digits 10 a) := (Nat.ofDigits_digits 10 a).symm
      _ = Nat.ofDigits 10 (Nat.digits 10 b) := by rw [hdig]
      _ = b := Nat.ofDigits_digits 10 b

theorem takeWhile_digits (s : List Char) (c : Char) (t : List Char)
    (h : ∀ x ∈ s, x.isDigit = true) (hc : ¬ c.isDigit = true) :
    (s ++ c :: t).takeWhile Char.isDigit = s := by
  induction s with
  | nil => simp [List.takeWhile, hc]
  | cons x xs ih =>
      simp only [List.cons_append, List.takeWhile_cons]
      rw [if_pos (by simpa using h x (by simp))]
      simp [ih (fun y hy => h y (by simp [hy]))]

theorem digit_colon_cancel (A B C D : List Char)
    (hA : ∀ c ∈ A, c.isDigit = true) (hB : ∀ c ∈ B, c.isDigit = true)
    (h : A ++ ':' :: C = B ++ ':' :: D) : A = B ∧ C = D := by
  have hcolon : ¬ (':' : Char).isDigit = true := by decide
  have hAB : A = B := by
    have h₁ := takeWhile_digits A ':' C hA hcolon
    have h₂ := takeWhile_digits B ':' D hB hcolon
    rw [← h₁, ← h₂, h]
  refine ⟨hAB, ?_⟩
  subst hAB
  have := List.append_cancel_left h
  simpa using this


namespace CacheManager

theorem storeFind_storeSet_self {α : Type} (s : CacheStore α) (k : String)
    (e : CacheEntry α) : storeFind (storeSet s k e) k = some e := by
  induction s with
  | nil => simp [storeSet, storeFind]
  | cons kv rest ih =>
      by_cases h : kv.1 = k
      · simp [storeSet, h, storeFind]
      · cases kv with
        | mk k' e' =>
            simp only at h
            simp [storeSet, h, storeFind, ih]

theorem storeFind_storeSet_ne {α : Type} (s : CacheStore α) (k k' : String)
    (e : CacheEntry α) (h : k' ≠ k) :
    storeFind (storeSet s k e) k' = storeFind s k' := by
  induction s with
  | nil =>
      simp only [storeSet, storeFind, ite_eq_right_iff]
      exact fun hh => absurd hh.symm h
  | cons kv rest ih =>
      cases kv with
      | mk k₀ e₀ =>
          by_cases h0 : k₀ = k
          · subst h0
            have hk : k₀ ≠ k' := Ne.symm h
            simp [storeSet, storeFind, hk]
          · simp [storeSet, h0, storeFind, ih]

theorem storeFind_storeErase_self {α : Type} (s : CacheStore α) (k : String) :
    storeFind (storeErase s k) k = none := by
  induction s with
  | nil => simp [storeErase, storeFind]
  | cons kv rest ih =>
      cases kv with
      | mk k₀ e₀ =>
          by_cases h0 : k₀ = k
          · simp [storeErase, h0, ih]
          · simp [storeErase, h0, storeFind, ih]

theorem storeFind_storeErase_ne {α : Type} (s : CacheStore α) (k k' : String)
    (h : k' ≠ k) : storeFind (storeErase s k) k' = storeFind s k' := by
  induction s with
  | nil => simp [storeErase, storeFind]
  | cons kv rest ih =>
      cases kv with
      | mk k₀ e₀ =>
          by_cases h0 : k₀ = k
          · subst h0
            have hk : k₀ ≠ k' := Ne.symm h
            simp [storeErase, storeFind, hk, ih]
          · simp [storeErase, h0, storeFind, ih]


end CacheManager

namespace CacheManager

theorem tripleStr_data (g : FileMeta) :
    (tripleStr g).data =
      g.path.data ++ ':' ::
        ((renderNat g.mtime).data ++ ':' :: (renderNat g.size).data) := by
  simp [tripleStr, strData_append]

theorem tripleStr_ne (f f' : FileMeta) (hp : f'.path = f.path)
    (hm : f'.mtime ≠ f.mtime ∨ f'.size ≠ f.size) : tripleStr f' ≠ tripleStr f := by
  intro h
  have hd := congrArg String.data h
  rw [tripleStr_data, tripleStr_data, hp] at hd
  have htail := List.append_cancel_left hd
  have htail' :
      (renderNat f'.mtime).data ++ ':' :: (renderNat f'.size).data =
        (renderNat f.mtime).data ++ ':' :: (renderNat f.size).data := by
    simpa using htail
  have hcc := digit_colon_cancel _ _ _ _
    (fun c hc => renderNat_data_isDigit c hc)
    (fun c hc => renderNat_data_isDigit c hc) htail'
  have hmeq : f'.mtime = f.mtime :=
    renderNat_injective (strData_inj hcc.1)
  have hseq : f'.size = f.size :=
    renderNat_injective (strData_inj hcc.2)
  rcases hm with hm | hm
  · exact hm hmeq
  · exact hm hseq

theorem combinedString_single (f : FileMeta) : combinedString [f] = tripleStr f := by
  simp [combinedString, sortFiles, List.insertionSort, List.orderedInsert,
    String.intercalate, String.intercalate.go]

theorem combinedString_single_ne (f f' : FileMeta) (hp : f'.path = f.path)
    (hm : f'.mtime ≠ f.mtime ∨ f'.size ≠ f.size) :
    combinedString [f'] ≠ combinedString [f] := by
  rw [combinedString_single, combinedString_single]
  exact tripleStr_ne f f' hp hm

end CacheManager

namespace CacheManager

/-- C1: Cache round-trip.  For every non-empty key and every result value,
saving under the key and then reading the same key back - with the same
file list or none, within the TTL window, on the store produced by the
save - returns the saved value unchanged. -/
theorem cache_roundtrip {α : Type} (H : String → String) (ttl now₁ now₂ : Int)
    (store : CacheStore α) (k : String) (v : α)
    (files gf : Option (List FileMeta))
    (hk : k ≠ "") (hts : now₂ - now₁ ≤ ttl) (hgf : gf = files ∨ gf = none) :
    (get_cached_result H ttl now₂ (save_result H now₁ store k v files) k gf).1 =
      some v := by
  have hfind :
      storeFind (save_result H now₁ store k v files) k =
        some { timestamp := now₁
               projectHash :=
                 if filesTruthy files then
                   some (projectHash H (files.getD [])) else none
               result := v } := by
    simp [save_result, storeFind_storeSet_self]
  have httl : ¬ now₂ - now₁ > ttl := by omega
  rcases hgf with rfl | rfl
  · cases hf : filesTruthy gf with
    | true => simp [get_cached_result, hfind, httl, hf]
    | false => simp [get_cached_result, hfind, httl, hf]
  · simp [get_cached_result, hfind, httl, filesTruthy]

/-- C1 witness: the round-trip theorem applied at a concrete key, value,
store and clock. -/
theorem cache_roundtrip_witness :
    (get_cached_result (fun s => s) 24 10
        (save_result (fun s => s) 3 ([] : CacheStore Nat) "static_analysis" 7 none)
        "static_analysis" none).1 = some 7 :=
  cache_roundtrip (fun s => s) 24 3 10 [] "static_analysis" 7 none none
    (by decide) (by norm_num) (Or.inr rfl)

/-- C4: Cache TTL validity.  With an entry stored under the key, the read
returns that entry's result exactly when its age is at most the TTL and the
project hash matches whenever a non-empty file list is supplied; the store
is returned unchanged (expired entries are not deleted); with a TTL of zero
a strictly positive age is a miss, while an age equal to the TTL is a hit. -/
theorem cache_ttl_validity {α : Type} (H : String → String) (ttl now : Int)
    (store : CacheStore α) (k : String) (gf : Option (List FileMeta))
    (e : CacheEntry α) (he : storeFind store k = some e) :
    ((get_cached_result H ttl now store k gf).1 = some e.result ↔
      now - e.timestamp ≤ ttl ∧
        (filesTruthy gf = true →
          projectHash H (gf.getD []) = e.projectHash.getD "")) ∧
    (get_cached_result H ttl now store k gf).2 = store ∧
    (ttl = 0 → 0 < now - e.timestamp →
      (get_cached_result H ttl now store k gf).1 = none) ∧
    (now - e.timestamp = ttl →
      (filesTruthy gf = true →
        projectHash H (gf.getD []) = e.projectHash.getD "") →
      (get_cached_result H ttl now store k gf).1 = some e.result) := by
  have hbase : get_cached_result H ttl now store k gf =
      (if now - e.timestamp > ttl then ((none : Option α), store)
       else if filesTruthy gf then
         (if projectHash H (gf.getD []) ≠ e.projectHash.getD "" then
            (none, store)
          else (some e.result, store))
       else (some e.result, store)) := by
    simp [get_cached_result, he]
  refine ⟨?_, ?_, ?_, ?_⟩
  · rw [hbase]
    by_cases h1 : now - e.timestamp > ttl
    · simp only [h1, if_true]
      constructor
      · intro h; simp at h
      · intro h; exfalso; omega
    · simp only [h1, if_false]
      by_cases h2 : filesTruthy gf
      · by_cases h3 : projectHash H (gf.getD []) = e.projectHash.getD ""
        · simp [h2, h3]; omega
        · rw [if_pos h2, if_pos h3]
          constructor
          · intro h; simp at h
          · intro h; exact absurd (h.2 h2) h3
      · simp only [h2, if_false]
        constructor
        · intro _; exact ⟨by omega, fun hf => absurd hf (by simp [h2])⟩
        · intro _; rfl
  · rw [hbase]; split_ifs <;> rfl
  · intro h0 hpos
    rw [hbase, if_pos (by omega)]
  · intro hage hhash
    rw [hbase, if_neg (by omega)]
    by_cases h2 : filesTruthy gf
    · simp [h2, hhash h2]
    · simp [h2]

/-- C4 witness: the TTL-validity theorem applied to a concrete store whose
single entry has age equal to a TTL of zero, yielding a hit. -/
theorem cache_ttl_validity_witness :
    (get_cached_result (fun s => s) 0 5
        ([("k", { timestamp := 5, projectHash := none, result := 1 })] :
          CacheStore Nat) "k" none).1 = some 1 := by
  have h := cache_ttl_validity (fun s => s) 0 5
    ([("k", { timestamp := 5, projectHash := none, result := (1 : Nat) })])
    "k" none { timestamp := 5, projectHash := none, result := (1 : Nat) }
    (by rfl)
  exact h.2.2.2 (by norm_num) (by intro hf; simp [filesTruthy] at hf)

/-- C10: an empty but present file list behaves exactly like no file list:
the content-hash comparison is skipped, and a non-expired entry is a hit
even if it was saved with a different project hash. -/
theorem cache_empty_file_list {α : Type} (H : String → String) (ttl now : Int)
    (store : CacheStore α) (k : String) :
    (get_cached_result H ttl now store k (some []) =
      get_cached_result H ttl now store k none) ∧
    (∀ e : CacheEntry α, storeFind store k = some e → now - e.timestamp ≤ ttl →
      (get_cached_result H ttl now store k (some [])).1 = some e.result) := by
  constructor
  · cases he : storeFind store k with
    | none => simp [get_cached_result, he]
    | some e => simp [get_cached_result, he, filesTruthy]
  · intro e he hage
    have httl : ¬ now - e.timestamp > ttl := by omega
    simp [get_cached_result, he, httl, filesTruthy]

/-- C10 witness: the empty-file-list theorem applied to a concrete store
whose entry was saved with a project hash that matches no current state. -/
theorem cache_empty_file_list_witness :
    (get_cached_result (fun s => s) 24 10
        ([("k", { timestamp := 3, projectHash := some "stale", result := 9 })] :
          CacheStore Nat) "k" (some [])).1 = some 9 :=
  (cache_empty_file_list (fun s => s) 24 10
      ([("k", { timestamp := 3, projectHash := some "stale", result := (9 : Nat) })])
      "k").2
    { timestamp := 3, projectHash := some "stale", result := (9 : Nat) }
    (by rfl) (by norm_num)

end CacheManager

namespace CacheManager

/-- C6: Cache key isolation and invalidate frame.  After saving under two
distinct keys and invalidating the first, reading the second still returns
its value, reading the first misses, and invalidating an absent key leaves
the store unchanged. -/
theorem cache_key_isolation {α : Type} (H : String → String)
    (ttl n₁ n₂ now : Int) (store : CacheStore α) (a b : String) (v₁ v₂ : α)
    (f₁ f₂ gf : Option (List FileMeta))
    (hab : a ≠ b) (hts : now - n₂ ≤ ttl) :
    ((get_cached_result H ttl now
        (invalidate (save_result H n₂ (save_result H n₁ store a v₁ f₁) b v₂ f₂)
          (some a)) b none).1 = some v₂) ∧
    ((get_cached_result H ttl now
        (invalidate (save_result H n₂ (save_result H n₁ store a v₁ f₁) b v₂ f₂)
          (some a)) a gf).1 = none) ∧
    (∀ (s : CacheStore α) (k : String),
      storeFind s k = none → invalidate s (some k) = s) := by
  have e₁ :
      CacheEntry α :=
    { timestamp := n₁
      projectHash :=
        if filesTruthy f₁ then some (projectHash H (f₁.getD [])) else none
      result := v₁ }
  have hfind_a :
      storeFind (save_result H n₂ (save_result H n₁ store a v₁ f₁) b v₂ f₂) a =
        some { timestamp := n₁
               projectHash :=
                 if filesTruthy f₁ then some (projectHash H (f₁.getD [])) else none
               result := v₁ } := by
    rw [save_result, storeFind_storeSet_ne _ _ _ _ hab]
    simp [save_result, storeFind_storeSet_self]
  have hsome : (storeFind
      (save_result H n₂ (save_result H n₁ store a v₁ f₁) b v₂ f₂) a).isSome :=
    by rw [hfind_a]; rfl
  have hinv :
      invalidate (save_result H n₂ (save_result H n₁ store a v₁ f₁) b v₂ f₂)
        (some a) =
      storeErase (save_result H n₂ (save_result H n₁ store a v₁ f₁) b v₂ f₂) a := by
    simp [invalidate, hsome]
  refine ⟨?_, ?_, ?_⟩
  · rw [hinv]
    have hb :
        storeFind
          (storeErase (save_result H n₂ (save_result H n₁ store a v₁ f₁) b v₂ f₂) a)
          b =
          some { timestamp := n₂
                 projectHash :=
                   if filesTruthy f₂ then some (projectHash H (f₂.getD [])) else none
                 result := v₂ } := by
      rw [storeFind_storeErase_ne _ _ _ (Ne.symm hab)]
      simp [save_result, storeFind_storeSet_self]
    have httl : ¬ now - n₂ > ttl := by omega
    simp [get_cached_result, hb, httl, filesTruthy]
  · rw [hinv]
    have ha :
        storeFind
          (storeErase (save_result H n₂ (save_result H n₁ store a v₁ f₁) b v₂ f₂) a)
          a = none := storeFind_storeErase_self _ _
    simp [get_cached_result, ha]
  · intro s k hk
    simp [invalidate, hk]

/-- C6 witness: the isolation theorem applied to two concrete keys and
values on an initially empty store. -/
theorem cache_key_isolation_witness :
    ((get_cached_result (fun s => s) 24 10
        (invalidate (save_result (fun s => s) 2
            (save_result (fun s => s) 1 ([] : CacheStore Nat) "a" 11 none)
            "b" 22 none) (some "a")) "b" none).1 = some 22) ∧
    ((get_cached_result (fun s => s) 24 10
        (invalidate (save_result (fun s => s) 2
            (save_result (fun s => s) 1 ([] : CacheStore Nat) "a" 11 none)
            "b" 22 none) (some "a")) "a" none).1 = none) := by
  have h := cache_key_isolation (fun s => s) 24 1 2 10 ([] : CacheStore Nat)
    "a" "b" 11 22 none none none (by decide) (by norm_num)
  exact ⟨h.1, h.2.1⟩

/-- C5: Cache content-invalidation.  After saving with a non-empty file
list, a read with the unchanged list within the TTL returns the saved
value; a read with any non-empty list whose metadata string hashes
differently misses; and concretely, for an injective digest, changing a
single file's mtime or size makes the read miss. -/
theorem cache_content_invalidation {α : Type} (H : String → String)
    (ttl now₁ now₂ : Int) (store : CacheStore α) (k : String) (v : α)
    (fs : List FileMeta) (hfs : fs ≠ []) (hts : now₂ - now₁ ≤ ttl)
    (hH : Function.Injective H) :
    ((get_cached_result H ttl now₂ (save_result H now₁ store k v (some fs)) k
        (some fs)).1 = some v) ∧
    (∀ fs' : List FileMeta, fs' ≠ [] →
      H (combinedString fs') ≠ H (combinedString fs) →
      (get_cached_result H ttl now₂ (save_result H now₁ store k v (some fs)) k
        (some fs')).1 = none) ∧
    (∀ f f' : FileMeta, f'.path = f.path →
      (f'.mtime ≠ f.mtime ∨ f'.size ≠ f.size) →
      (get_cached_result H ttl now₂ (save_result H now₁ store k v (some [f])) k
        (some [f'])).1 = none) := by
  have httl : ¬ now₂ - now₁ > ttl := by omega
  refine ⟨?_, ?_, ?_⟩
  · obtain ⟨x, xs, rfl⟩ := List.exists_cons_of_ne_nil hfs
    have hfind :
        storeFind (save_result H now₁ store k v (some (x :: xs))) k =
          some { timestamp := now₁
                 projectHash := some (projectHash H (x :: xs))
                 result := v } := by
      simp [save_result, storeFind_storeSet_self, filesTruthy]
    simp [get_cached_result, hfind, httl, filesTruthy]
  · intro fs' hfs' hne
    obtain ⟨x, xs, rfl⟩ := List.exists_cons_of_ne_nil hfs
    obtain ⟨y, ys, rfl⟩ := List.exists_cons_of_ne_nil hfs'
    have hfind :
        storeFind (save_result H now₁ store k v (some (x :: xs))) k =
          some { timestamp := now₁
                 projectHash := some (projectHash H (x :: xs))
                 result := v } := by
      simp [save_result, storeFind_storeSet_self, filesTruthy]
    have hne' : projectHash H (y :: ys) ≠ projectHash H (x :: xs) := hne
    simp [get_cached_result, hfind, httl, filesTruthy, hne']
  · intro f f' hp hm
    have hcomb : combinedString [f'] ≠ combinedString [f] :=
      combinedString_single_ne f f' hp hm
    have hne' : projectHash H [f'] ≠ projectHash H [f] :=
      fun h => hcomb (hH h)
    have hfind :
        storeFind (save_result H now₁ store k v (some [f])) k =
          some { timestamp := now₁
                 projectHash := some (projectHash H [f])
                 result := v } := by
      simp [save_result, storeFind_storeSet_self, filesTruthy]
    simp [get_cached_result, hfind, httl, filesTruthy, hne']

/-- C5 witness: with the identity digest, saving with one file and reading
after a size change misses, while reading with the unchanged file hits. -/
theorem cache_content_invalidation_witness :
    ((get_cached_result (fun s => s) 24 10
        (save_result (fun s => s) 3 ([] : CacheStore Nat) "k" 5
          (some [{ path := "main.py", mtime := 100, size := 10 }])) "k"
        (some [{ path := "main.py", mtime := 100, size := 10 }])).1 = some 5) ∧
    ((get_cached_result (fun s => s) 24 10
        (save_result (fun s => s) 3 ([] : CacheStore Nat) "k" 5
          (some [{ path := "main.py", mtime := 100, size := 10 }])) "k"
        (some [{ path := "main.py", mtime := 100, size := 11 }])).1 = none) := by
  have h := cache_content_invalidation (fun s => s) 24 3 10 ([] : CacheStore Nat)
    "k" (5 : Nat) [{ path := "main.py", mtime := 100, size := 10 }]
    (by decide) (by norm_num) (fun x y hxy => hxy)
  refine ⟨h.1, ?_⟩
  exact h.2.2 { path := "main.py", mtime := 100, size := 10 }
    { path := "main.py", mtime := 100, size := 11 } rfl (Or.inr (by decide))

end CacheManager

namespace HistoryTracker

/-- C7: History aggregation invariant.  When the static summary and, if
present, the AI summary each have severity counts summing to their own
total, the appended entry's severity counts sum to its total, and saving
appends exactly one entry after the existing history, rewriting none. -/
theorem history_aggregation (now : Int) (mode : String) (st : Summary)
    (ai : Option Summary) (hist : List HistoryEntry)
    (hst : st.by_severity.critical + st.by_severity.warning +
      st.by_severity.info = st.total_issues)
    (hai : ∀ a, ai = some a → a.by_severity.critical + a.by_severity.warning +
      a.by_severity.info = a.total_issues) :
    save_result now mode st ai hist = hist ++ [mkHistoryEntry now mode st ai] ∧
    (mkHistoryEntry now mode st ai).summary.by_severity.critical +
      (mkHistoryEntry now mode st ai).summary.by_severity.warning +
      (mkHistoryEntry now mode st ai).summary.by_severity.info =
      (mkHistoryEntry now mode st ai).summary.total_issues := by
  refine ⟨rfl, ?_⟩
  cases ai with
  | none =>
      simp [mkHistoryEntry, aggregate_severity]
      omega
  | some a =>
      have ha := hai a rfl
      simp [mkHistoryEntry, aggregate_severity]
      omega

/-- C7 witness: the aggregation theorem applied to concrete static and AI
summaries whose counts are consistent. -/
theorem history_aggregation_witness :
    save_result 5 "deployment"
        { total_issues := 3, by_severity := { critical := 1, warning := 1, info := 1 } }
        (some { total_issues := 2, by_severity := { critical := 0, warning := 1, info := 1 } })
        [] =
      [mkHistoryEntry 5 "deployment"
        { total_issues := 3, by_severity := { critical := 1, warning := 1, info := 1 } }
        (some { total_issues := 2, by_severity := { critical := 0, warning := 1, info := 1 } })] ∧
    (mkHistoryEntry 5 "deployment"
        { total_issues := 3, by_severity := { critical := 1, warning := 1, info := 1 } }
        (some { total_issues := 2, by_severity := { critical := 0, warning := 1, info := 1 } })).summary.by_severity.critical +
      (mkHistoryEntry 5 "deployment"
        { total_issues := 3, by_severity := { critical := 1, warning := 1, info := 1 } }
        (some { total_issues := 2, by_severity := { critical := 0, warning := 1, info := 1 } })).summary.by_severity.warning +
      (mkHistoryEntry 5 "deployment"
        { total_issues := 3, by_severity := { critical := 1, warning := 1, info := 1 } }
        (some { total_issues := 2, by_severity := { critical := 0, warning := 1, info := 1 } })).summary.by_severity.info =
      (mkHistoryEntry 5 "deployment"
        { total_issues := 3, by_severity := { critical := 1, warning := 1, info := 1 } }
        (some { total_issues := 2, by_severity := { critical := 0, warning := 1, info := 1 } })).summary.total_issues :=
  history_aggregation 5 "deployment"
    { total_issues := 3, by_severity := { critical := 1, warning := 1, info := 1 } }
    (some { total_issues := 2, by_severity := { critical := 0, warning := 1, info := 1 } })
    [] (by decide) (fun a ha => by cases ha; decide)

/-- C3 counterexample: on an empty history the returned record has no
change_percent field and no timeline field, so it does not have exactly the
documented seven-field shape. -/
theorem trend_empty_missing_fields :
    ("change_percent" ∉ (get_trend_data []).map Prod.fst) ∧
    ("timeline" ∉ (get_trend_data []).map Prod.fst) := by
  decide

/-- C3 amended: on an empty history get_trend_data returns, without
raising, exactly the five fields total_runs = 0, trend = no_data,
current_issues = 0, previous_issues = 0 and change = 0; the change_percent
and timeline fields are absent in this case. -/
theorem trend_empty_history :
    get_trend_data [] =
      [("total_runs", TrendVal.int 0), ("trend", TrendVal.str "no_data"),
       ("current_issues", TrendVal.int 0), ("previous_issues", TrendVal.int 0),
       ("change", TrendVal.int 0)] := rfl

end HistoryTracker

namespace AIAnalyzer

/-- C2 counterexample: a filename matching two low-tier patterns is charged
the penalty twice, so the low tier contributes less than -30. -/
theorem low_tier_stacks :
    lowTierScore "test_spec.py" = -60 ∧ lowTierScore "test_spec.py" < -30 := by
  decide

/-- C2 amended: the high tier contributes 0 or exactly 100 and the medium
tier 0 or exactly 50 (their loops break on the first match), while the
low-tier loop has no break and subtracts 30 per matching pattern, so its
contribution lies between -150 and 0; the three tier contributions are
summands of the file score. -/
theorem filename_tier_bounds (filename name : String) (depth : Nat)
    (content : String) :
    (highTierScore filename = 0 ∨ highTierScore filename = 100) ∧
    (medTierScore filename = 0 ∨ medTierScore filename = 50) ∧
    (-150 ≤ lowTierScore filename ∧ lowTierScore filename ≤ 0) ∧
    calculate_file_score name depth content =
      highTierScore (strLower name) + medTierScore (strLower name) +
        lowTierScore (strLower name) + restScore name depth content := by
  refine ⟨?_, ?_, ?_, rfl⟩
  · unfold highTierScore; split
    · exact Or.inr rfl
    · exact Or.inl rfl
  · unfold medTierScore; split
    · exact Or.inr rfl
    · exact Or.inl rfl
  · have h5 : (low_priority_patterns.filter (fun p => strIn p filename)).length ≤ 5 := by
      have h := List.length_filter_le (fun p => strIn p filename) low_priority_patterns
      simpa [low_priority_patterns] using h
    unfold lowTierScore
    omega

/-- Stability of the ordered insert: filtering one score class commutes
with inserting, because the insert never passes an equal-score element. -/
theorem filter_orderedInsert_score (x : FileScoreRec) (l : List FileScoreRec)
    (s : Int) :
    (List.orderedInsert scoreGE x l).filter (fun y => y.score == s) =
      if x.score == s then x :: l.filter (fun y => y.score == s)
      else l.filter (fun y => y.score == s) := by
  induction l with
  | nil =>
      simp only [List.orderedInsert]
      by_cases hpx : x.score == s <;> simp [List.filter_cons, hpx]
  | cons y ys ih =>
      simp only [List.orderedInsert]
      by_cases hxy : scoreGE x y
      · rw [if_pos hxy]
        by_cases hpx : x.score == s <;> simp [List.filter_cons, hpx]
      · rw [if_neg hxy]
        by_cases hpx : x.score == s <;> by_cases hpy : y.score == s
        · exfalso
          exact hxy (le_of_eq (by
            have h1 : x.score = s := by simpa using hpx
            have h2 : y.score = s := by simpa using hpy
            rw [h1, h2]))
        · simp only [List.filter_cons, hpy, if_neg, ih, hpx, if_pos]
          simp [hpy]
        · simp only [List.filter_cons, ih, hpx]
          simp [hpy]
        · simp only [List.filter_cons, ih, hpx]
          simp [hpy]

/-- Stability of the descending score sort: each score class keeps its
original traversal order. -/
theorem sortByScore_stable (l : List FileScoreRec) (s : Int) :
    (sortByScore l).filter (fun y => y.score == s) =
      l.filter (fun y => y.score == s) := by
  induction l with
  | nil => rfl
  | cons x xs ih =>
      show (List.orderedInsert scoreGE x (List.insertionSort scoreGE xs)).filter _ = _
      rw [filter_orderedInsert_score]
      by_cases hpx : x.score == s
      · rw [if_pos hpx]
        have ihs : (List.insertionSort scoreGE xs).filter (fun y => y.score == s) =
            xs.filter (fun y => y.score == s) := ih
        rw [ihs, List.filter_cons, if_pos (by simpa using hpx)]
      · rw [if_neg hpx]
        have ihs : (List.insertionSort scoreGE xs).filter (fun y => y.score == s) =
            xs.filter (fun y => y.score == s) := ih
        rw [ihs, List.filter_cons, if_neg (by simpa using hpx)]

/-- C9: Ranking determinism.  With skipAlreadySelected false, the selection
output does not depend on the analyzed-file state at all, so two calls on
an unchanged tree return identical ordered output; the sort is descending
by score and stable, breaking ties by traversal order. -/
theorem ranking_determinism (fs : List RawFile) (maxFiles : Nat)
    (a₁ a₂ : List String) :
    ((collect_code_samples fs maxFiles false a₁).1 =
      (collect_code_samples fs maxFiles false a₂).1) ∧
    (∀ l : List FileScoreRec, List.Sorted scoreGE (sortByScore l)) ∧
    (∀ (l : List FileScoreRec) (s : Int),
      (sortByScore l).filter (fun y => y.score == s) =
        l.filter (fun y => y.score == s)) := by
  refine ⟨?_, ?_, ?_⟩
  · simp [collect_code_samples, candidates]
  · intro l
    exact List.sorted_insertionSort scoreGE l
  · intro l s
    exact sortByScore_stable l s

end AIAnalyzer

namespace AIAnalyzer

theorem mem_addAnalyzed (a : List String) (p q : String) :
    q ∈ addAnalyzed a p ↔ q ∈ a ∨ q = p := by
  by_cases h : a.contains p
  · have hp : p ∈ a := by simpa using h
    simp only [addAnalyzed, h, if_true]
    constructor
    · exact Or.inl
    · rintro (hq | rfl)
      · exact hq
      · exact hp
  · have hp : p ∉ a := by simpa using h
    have hb : a.contains p = false := by simpa using h
    simp [addAnalyzed, hb, hp]

theorem mem_foldl_addAnalyzed (sel : List FileScoreRec) (a : List String)
    (q : String) :
    q ∈ sel.foldl (fun acc s => addAnalyzed acc s.path) a ↔
      q ∈ a ∨ q ∈ sel.map (fun s => s.path) := by
  induction sel generalizing a with
  | nil => simp
  | cons x xs ih =>
      simp only [List.foldl_cons, List.map_cons, List.mem_cons]
      rw [ih, mem_addAnalyzed]
      tauto

theorem collect_out_paths (fs : List RawFile) (n : Nat) (skip : Bool)
    (a : List String) :
    (collect_code_samples fs n skip a).1.map Sample.path =
      ((sortByScore ((candidates fs skip a).map scoreOf)).take n).map
        (fun s => s.path) := by
  have hcomp :
      (Sample.path ∘ fun s : FileScoreRec =>
        ({ path := s.path, content := s.content, extension := s.extension } :
          Sample)) = fun s : FileScoreRec => s.path := rfl
  simp [collect_code_samples, List.map_map, hcomp]

theorem collect_analyzed_mem (fs : List RawFile) (n : Nat) (skip : Bool)
    (a : List String) (q : String) :
    q ∈ (collect_code_samples fs n skip a).2 ↔
      q ∈ a ∨ q ∈ (collect_code_samples fs n skip a).1.map Sample.path := by
  have h2 : (collect_code_samples fs n skip a).2 =
      ((sortByScore ((candidates fs skip a).map scoreOf)).take n).foldl
        (fun acc s => addAnalyzed acc s.path) a := rfl
  rw [h2, mem_foldl_addAnalyzed, collect_out_paths]

theorem mem_selected_candidates (fs : List RawFile) (n : Nat) (skip : Bool)
    (a : List String) (x : FileScoreRec)
    (hx : x ∈ (sortByScore ((candidates fs skip a).map scoreOf)).take n) :
    ∃ f ∈ candidates fs skip a, x = scoreOf f := by
  have hx1 : x ∈ sortByScore ((candidates fs skip a).map scoreOf) :=
    List.take_subset n _ hx
  have hx2 : x ∈ (candidates fs skip a).map scoreOf := by
    have := (List.mem_insertionSort scoreGE).mp hx1
    exact this
  obtain ⟨f, hf, hfx⟩ := List.mem_map.mp hx2
  exact ⟨f, hf, hfx.symm⟩

theorem collect_path_not_analyzed (fs : List RawFile) (n : Nat)
    (a : List String) (p : String)
    (hp : p ∈ (collect_code_samples fs n true a).1.map Sample.path) :
    p ∉ a := by
  rw [collect_out_paths] at hp
  obtain ⟨x, hx, hxp⟩ := List.mem_map.mp hp
  obtain ⟨f, hf, rfl⟩ := mem_selected_candidates fs n true a x hx
  have hfilt := List.of_mem_filter hf
  have hcon : a.contains (relPath f) = false := by
    rcases Bool.and_eq_true _ _ |>.mp hfilt with ⟨_, hr⟩
    simp only [Bool.true_and, Bool.not_eq_true'] at hr
    exact hr
  have : relPath f ∉ a := by simpa using hcon
  have hpath : p = relPath f := by
    rw [← hxp]; rfl
  rw [hpath]
  exact this

end AIAnalyzer

namespace AIAnalyzer

theorem iterAnalyzed_mem (fs : List RawFile) (n : Nat) :
    ∀ (k : Nat) (q : String),
      q ∈ iterAnalyzed fs n k ↔
        ∃ i, i < k ∧ q ∈ (iterOut fs n i).map Sample.path := by
  intro k
  induction k with
  | zero => intro q; simp [iterAnalyzed]
  | succ k ih =>
      intro q
      show q ∈ (collect_code_samples fs n true (iterAnalyzed fs n k)).2 ↔ _
      rw [collect_analyzed_mem]
      constructor
      · rintro (hq | hq)
        · obtain ⟨i, hi, h⟩ := (ih q).mp hq
          exact ⟨i, Nat.lt_succ_of_lt hi, h⟩
        · exact ⟨k, Nat.lt_succ_self k, hq⟩
      · rintro ⟨i, hi, h⟩
        rcases Nat.lt_succ_iff_lt_or_eq.mp hi with hik | rfl
        · exact Or.inl ((ih q).mpr ⟨i, hik, h⟩)
        · exact Or.inr h

theorem iterAnalyzed_mono (fs : List RawFile) (n k : Nat) :
    iterAnalyzed fs n k ⊆ iterAnalyzed fs n (k + 1) := by
  intro q hq
  exact (collect_analyzed_mem fs n true (iterAnalyzed fs n k) q).mpr (Or.inl hq)

theorem iterAnalyzed_mono_le (fs : List RawFile) (n : Nat) (k m : Nat)
    (hkm : k ≤ m) : iterAnalyzed fs n k ⊆ iterAnalyzed fs n m := by
  induction hkm with
  | refl => exact fun q hq => hq
  | step h ih => exact fun q hq => iterAnalyzed_mono fs n _ (ih hq)

theorem candidates_sub_antitone (fs : List RawFile) (a b : List String)
    (hab : ∀ q, q ∈ a → q ∈ b) :
    List.Sublist (candidates fs true b) (candidates fs true a) := by
  apply List.monotone_filter_right
  intro f hf
  rcases Bool.and_eq_true _ _ |>.mp hf with ⟨hel, hr⟩
  simp only [Bool.true_and, Bool.not_eq_true'] at hr
  have hbm : relPath f ∉ b := by simpa using hr
  have ham : relPath f ∉ a := fun h => hbm (hab _ h)
  refine Bool.and_eq_true _ _ |>.mpr ⟨hel, ?_⟩
  simp only [Bool.true_and, Bool.not_eq_true']
  simpa using ham

theorem collect_out_empty (fs : List RawFile) (n : Nat) (skip : Bool)
    (a : List String) (h : candidates fs skip a = []) :
    (collect_code_samples fs n skip a).1 = [] := by
  simp [collect_code_samples, h, sortByScore, List.insertionSort]

theorem collect_out_ne_empty (fs : List RawFile) (n : Nat) (a : List String)
    (hn : 1 ≤ n) (h : candidates fs true a ≠ []) :
    (collect_code_samples fs n true a).1 ≠ [] := by
  intro hout
  have hlen : (collect_code_samples fs n true a).1.length =
      min n ((candidates fs true a).length) := by
    simp [collect_code_samples, sortByScore]
  rw [hout] at hlen
  simp only [List.length_nil] at hlen
  have hl : 0 < (candidates fs true a).length := List.length_pos.mpr h
  have hmin : 0 < min n ((candidates fs true a).length) :=
    lt_min (by omega) hl
  omega

theorem cands_step_empty (fs : List RawFile) (n : Nat) (a : List String)
    (h : candidates fs true a = []) :
    candidates fs true ((collect_code_samples fs n true a).2) = [] := by
  have hsub : ∀ q, q ∈ a → q ∈ (collect_code_samples fs n true a).2 :=
    fun q hq => (collect_analyzed_mem fs n true a q).mpr (Or.inl hq)
  have hsl := candidates_sub_antitone fs a _ hsub
  rw [h] at hsl
  exact List.sublist_nil.mp hsl

theorem cands_step_decrease (fs : List RawFile) (n : Nat) (hn : 1 ≤ n)
    (a : List String) (h : candidates fs true a ≠ []) :
    (candidates fs true ((collect_code_samples fs n true a).2)).length <
      (candidates fs true a).length := by
  have hsub : ∀ q, q ∈ a → q ∈ (collect_code_samples fs n true a).2 :=
    fun q hq => (collect_analyzed_mem fs n true a q).mpr (Or.inl hq)
  have hsl := candidates_sub_antitone fs a _ hsub
  have hout : (collect_code_samples fs n true a).1 ≠ [] :=
    collect_out_ne_empty fs n a hn h
  obtain ⟨smp, hsmp⟩ := List.exists_mem_of_ne_nil _ hout
  have hpmem : smp.path ∈ (collect_code_samples fs n true a).1.map Sample.path :=
    List.mem_map_of_mem _ hsmp
  have hrec : smp.path ∈ (collect_code_samples fs n true a).2 :=
    (collect_analyzed_mem fs n true a smp.path).mpr (Or.inr hpmem)
  have hp2 := hpmem
  rw [collect_out_paths] at hp2
  obtain ⟨x, hx, hxp⟩ := List.mem_map.mp hp2
  obtain ⟨f, hf, rfl⟩ := mem_selected_candidates fs n true a x hx
  have hpf : smp.path = relPath f := hxp.symm
  rw [hpf] at hrec
  have hfn : f ∉ candidates fs true ((collect_code_samples fs n true a).2) := by
    intro hmem
    have hfilt := List.of_mem_filter hmem
    rcases Bool.and_eq_true _ _ |>.mp hfilt with ⟨_, hr⟩
    simp only [Bool.true_and, Bool.not_eq_true'] at hr
    have hnot : relPath f ∉ (collect_code_samples fs n true a).2 := by
      simpa using hr
    exact hnot hrec
  have hle := hsl.length_le
  rcases lt_or_eq_of_le hle with hlt | heq
  · exact hlt
  · exfalso
    have heqlist := hsl.eq_of_length heq
    rw [heqlist] at hfn
    exact hfn hf

theorem iter_cands_bound (fs : List RawFile) (n : Nat) (hn : 1 ≤ n) :
    ∀ k, candidates fs true (iterAnalyzed fs n k) = [] ∨
      (candidates fs true (iterAnalyzed fs n k)).length + k ≤
        (candidates fs true []).length := by
  intro k
  induction k with
  | zero => right; simp [iterAnalyzed]
  | succ k ih =>
      by_cases hk : candidates fs true (iterAnalyzed fs n k) = []
      · left
        exact cands_step_empty fs n _ hk
      · rcases ih with h0 | hle
        · exact absurd h0 hk
        · right
          have hdec :
              (candidates fs true (iterAnalyzed fs n (k + 1))).length <
                (candidates fs true (iterAnalyzed fs n k)).length :=
            cands_step_decrease fs n hn (iterAnalyzed fs n k) hk
          omega

theorem iter_cands_empty_add (fs : List RawFile) (n : Nat) (k : Nat)
    (hk : candidates fs true (iterAnalyzed fs n k) = []) :
    ∀ d, candidates fs true (iterAnalyzed fs n (k + d)) = [] := by
  intro d
  induction d with
  | zero => exact hk
  | succ d ih => exact cands_step_empty fs n _ ih

/-- C8: Ranking incremental exhaustion.  On a fixed analyzer instance over
an unchanged traversal, with skipAlreadySelected, a later call never
returns a path that an earlier call returned, the analyzed set grows
monotonically, and there is a bound after which every call returns the
empty list, every initially eligible file having been returned by some
earlier call. -/
theorem ranking_incremental_exhaustion (fs : List RawFile) (n : Nat)
    (hn : 1 ≤ n) :
    (∀ i j, i < j → ∀ p, p ∈ (iterOut fs n i).map Sample.path →
      p ∉ (iterOut fs n j).map Sample.path) ∧
    (∀ k, iterAnalyzed fs n k ⊆ iterAnalyzed fs n (k + 1)) ∧
    (∃ N, (∀ m, N ≤ m → iterOut fs n m = []) ∧
      ∀ f ∈ candidates fs true [],
        ∃ i, relPath f ∈ (iterOut fs n i).map Sample.path) := by
  have hNe : candidates fs true
      (iterAnalyzed fs n ((candidates fs true []).length)) = [] := by
    rcases iter_cands_bound fs n hn ((candidates fs true []).length) with h | h
    · exact h
    · have hz :
          (candidates fs true
            (iterAnalyzed fs n ((candidates fs true []).length))).length = 0 := by
        omega
      exact List.length_eq_zero.mp hz
  refine ⟨?_, ?_, ?_⟩
  · intro i j hij p hpi hpj
    have h1 : p ∈ iterAnalyzed fs n (i + 1) :=
      (iterAnalyzed_mem fs n (i + 1) p).mpr ⟨i, Nat.lt_succ_self i, hpi⟩
    have h2 : p ∈ iterAnalyzed fs n j :=
      iterAnalyzed_mono_le fs n (i + 1) j (Nat.succ_le_of_lt hij) h1
    exact collect_path_not_analyzed fs n (iterAnalyzed fs n j) p hpj h2
  · exact fun k => iterAnalyzed_mono fs n k
  · refine ⟨(candidates fs true []).length, ?_, ?_⟩
    · intro m hm
      obtain ⟨d, rfl⟩ := Nat.exists_eq_add_of_le hm
      exact collect_out_empty fs n true _
        (iter_cands_empty_add fs n _ hNe d)
    · intro f hf
      by_contra hnone
      push_neg at hnone
      have hnotin : relPath f ∉
          iterAnalyzed fs n ((candidates fs true []).length) := by
        intro hmem
        obtain ⟨i, _, hi⟩ := (iterAnalyzed_mem fs n _ (relPath f)).mp hmem
        exact hnone i hi
      have hf2 : f ∈ candidates fs true
          (iterAnalyzed fs n ((candidates fs true []).length)) := by
        have hmem := List.mem_filter.mp hf
        refine List.mem_filter.mpr ⟨hmem.1, ?_⟩
        rcases Bool.and_eq_true _ _ |>.mp hmem.2 with ⟨hel, _⟩
        refine Bool.and_eq_true _ _ |>.mpr ⟨hel, ?_⟩
        simp only [Bool.true_and, Bool.not_eq_true']
        simpa using hnotin
      rw [hNe] at hf2
      exact absurd hf2 (List.not_mem_nil f)

/-- C8 witness: the exhaustion theorem applied to a concrete one-file
traversal with batch size one. -/
theorem ranking_incremental_exhaustion_witness :
    (∀ i j, i < j → ∀ p,
      p ∈ (iterOut [⟨["main.py"], true, true, "x = 1"⟩] 1 i).map Sample.path →
      p ∉ (iterOut [⟨["main.py"], true, true, "x = 1"⟩] 1 j).map Sample.path) ∧
    (∀ k, iterAnalyzed [⟨["main.py"], true, true, "x = 1"⟩] 1 k ⊆
      iterAnalyzed [⟨["main.py"], true, true, "x = 1"⟩] 1 (k + 1)) ∧
    (∃ N, (∀ m, N ≤ m →
        iterOut [⟨["main.py"], true, true, "x = 1"⟩] 1 m = []) ∧
      ∀ f ∈ candidates [⟨["main.py"], true, true, "x = 1"⟩] true [],
        ∃ i, relPath f ∈
          (iterOut [⟨["main.py"], true, true, "x = 1"⟩] 1 i).map Sample.path) :=
  ranking_incremental_exhaustion [⟨["main.py"], true, true, "x = 1"⟩] 1
    (by decide)

end AIAnalyzer
